import Mathlib

/-!
# Verification of the disk-analyser scanning and aggregation layer

A shallow embedding of the TypeScript store layer of the disk-analyser
repository (`stores.ts`, `scanService.ts`, `types.ts`) together with
spec-modelled definitions for the Rust backend components whose code is
described only by the project documentation (the depth-bounded lazy tree
builder and the inode deduplication tracker).

JavaScript `Map` objects are embedded as insertion-ordered association
lists, JavaScript `number` sizes as `Nat` (byte counts), and nullable
values as `Option`.  Wall-clock reads (`Date.now()`) are passed in as
explicit parameters; UI re-render scheduling (`requestAnimationFrame`)
performs no state change on the registry and is outside the embedding.
-/

set_option maxRecDepth 100000

namespace DiskAnalyser

/-- `FileType` enum from `types.ts`. -/
inductive FileType where
  | document
  | image
  | video
  | audio
  | archive
  | executable
  | systemFile
  | code
  | other
deriving DecidableEq, Repr

/-- `FileNode` interface from `types.ts`: the output-tree node shape.
`size` is in bytes, `modified` a Unix timestamp in milliseconds. -/
inductive FileNode where
  | mk
    (name : String)
    (path : String)
    (size : Nat)
    (is_directory : Bool)
    (children : List FileNode)
    (file_type : FileType)
    (modified : Nat)
deriving Repr

def FileNode.name : FileNode → String
  | .mk n _ _ _ _ _ _ => n

def FileNode.path : FileNode → String
  | .mk _ p _ _ _ _ _ => p

def FileNode.size : FileNode → Nat
  | .mk _ _ s _ _ _ _ => s

def FileNode.is_directory : FileNode → Bool
  | .mk _ _ _ d _ _ _ => d

def FileNode.children : FileNode → List FileNode
  | .mk _ _ _ _ c _ _ => c

def FileNode.file_type : FileNode → FileType
  | .mk _ _ _ _ _ t _ => t

def FileNode.modified : FileNode → Nat
  | .mk _ _ _ _ _ _ m => m

/-! ## Association-list embedding of JavaScript `Map` -/

/-- `Map.get(k)`: the value stored at the first entry whose key is `k`,
`none` when absent (JS `undefined`). -/
def mapGet {α : Type} (m : List (String × α)) (k : String) : Option α :=
  (m.find? (fun p => p.1 == k)).map Prod.snd

/-- `Map.set(k, v)`: replace the value at key `k` in place when present,
otherwise append a fresh entry (JS `Map` preserves insertion order). -/
def mapSet {α : Type} (m : List (String × α)) (k : String) (v : α) :
    List (String × α) :=
  if m.any (fun p => p.1 == k) then
    m.map (fun p => if p.1 == k then (k, v) else p)
  else
    m ++ [(k, v)]

theorem find_mapSet_hit {α : Type} (m : List (String × α)) (k : String) (v : α)
    (h : m.any (fun p => p.1 == k) = true) :
    (m.map (fun p => if p.1 == k then (k, v) else p)).find?
      (fun p => p.1 == k) = some (k, v) := by
  induction m with
  | nil => simp at h
  | cons hd tl ih =>
    by_cases hhd : hd.1 = k
    · rw [List.map_cons, if_pos (by simp [hhd]),
        List.find?_cons_of_pos _ (by simp)]
    · have hhd' : (hd.1 == k) = false := by simp [hhd]
      simp only [List.any_cons, hhd', Bool.false_or] at h
      rw [List.map_cons, if_neg (by simp [hhd]),
        List.find?_cons_of_neg _ (by simp [hhd])]
      exact ih h

theorem find_mapSet_miss {α : Type} (m : List (String × α)) (k k' : String)
    (v : α) (hk : k' ≠ k) :
    (m.map (fun p => if p.1 == k then (k, v) else p)).find?
      (fun p => p.1 == k') = m.find? (fun p => p.1 == k') := by
  have hkk : k ≠ k' := Ne.symm hk
  induction m with
  | nil => simp
  | cons hd tl ih =>
    by_cases hhd : hd.1 = k
    · rw [List.map_cons, if_pos (by simp [hhd]),
        List.find?_cons_of_neg _ (by simp [hkk]),
        List.find?_cons_of_neg _ (by simp [hhd, hkk]), ih]
    · by_cases h3 : hd.1 = k'
      · rw [List.map_cons, if_neg (by simp [hhd]),
          List.find?_cons_of_pos _ (by simp [h3]),
          List.find?_cons_of_pos _ (by simp [h3])]
      · rw [List.map_cons, if_neg (by simp [hhd]),
          List.find?_cons_of_neg _ (by simp [h3]),
          List.find?_cons_of_neg _ (by simp [h3]), ih]

theorem mapGet_mapSet {α : Type} (m : List (String × α)) (k k' : String) (v : α) :
    mapGet (mapSet m k v) k' = if k' == k then some v else mapGet m k' := by
  unfold mapGet mapSet
  by_cases hany : m.any (fun p => p.1 == k) = true
  · rw [if_pos hany]
    by_cases hk : k' = k
    · subst hk
      rw [find_mapSet_hit m k' v hany, if_pos (by simp)]
      rfl
    · rw [find_mapSet_miss m k k' v hk, if_neg (by simp [hk])]
  · rw [if_neg hany]
    by_cases hk : k' = k
    · subst hk
      have hnone : m.find? (fun p => p.1 == k') = none := by
        rw [List.find?_eq_none]
        intro p hp hc
        exact hany (List.any_eq_true.mpr ⟨p, hp, hc⟩)
      rw [List.find?_append, hnone, Option.none_or,
        List.find?_cons_of_pos _ (by simp), if_pos (by simp)]
      rfl
    · rw [List.find?_append,
        List.find?_cons_of_neg _ (by simp [Ne.symm hk]),
        List.find?_nil, Option.or_none, if_neg (by simp [hk])]

/-! ## Incremental tree-building state (`stores.ts`, incremental variant)

Module-level mutable state: `nodeRegistry`, `childrenMap`, `rootPath`,
`lastUpdateTime`, `pendingUpdate`.  The last two only throttle UI
re-renders (`scheduleTreeUpdate` / `requestAnimationFrame`) and never
touch the registry, so the registry-relevant state is the first three. -/

structure RegistryState where
  nodeRegistry : List (String × FileNode)
  childrenMap : List (String × List String)
  rootPath : Option String

/-- The cleared module-level state (also what `clearIncrementalState`
produces). -/
def RegistryState.empty : RegistryState := ⟨[], [], none⟩

/-- JavaScript truthiness of a `string | null` value: `null` and the
empty string are falsy. -/
def strTruthy : Option String → Bool
  | none => false
  | some s => !s.isEmpty

/-- One call to `addNodeIncremental` (`stores.ts`).  `now` stands for the
`Date.now()` read used for the `modified` stamp.  The trailing UI-update
throttle (lines 231–240) only schedules a re-render and does not modify
the registry. -/
def addNodeIncremental (st : RegistryState) (path : String)
    (parentPath : Option String) (name : String) (size : Nat)
    (isDirectory : Bool) (fileType : FileType) (now : Nat) : RegistryState :=
  let node : FileNode := .mk name path size isDirectory [] fileType now
  let reg := mapSet st.nodeRegistry path node
  let root :=
    if !(strTruthy parentPath) && !(strTruthy st.rootPath) then some path
    else st.rootPath
  let cm :=
    match parentPath with
    | some pp =>
      if pp.isEmpty then st.childrenMap
      else
        let siblings := (mapGet st.childrenMap pp).getD []
        mapSet st.childrenMap pp (siblings ++ [path])
    | none => st.childrenMap
  ⟨reg, cm, root⟩

/-- `clearIncrementalState` (`stores.ts`): reset the registry state. -/
def clearIncrementalState (_st : RegistryState) : RegistryState :=
  RegistryState.empty

/-- Sum of the `size` fields of a list of nodes (the `totalSize`
accumulation loop in `buildTreeFromRegistry`). -/
def sumSizes (l : List FileNode) : Nat := (l.map FileNode.size).sum

/-- Stable insertion step for sorting by descending size: `x` goes in
front of the first element strictly smaller than it, so elements of
equal size keep their original relative order, as JavaScript's stable
`Array.prototype.sort` with comparator `(a, b) => b.size - a.size`. -/
def insertBySize (x : FileNode) : List FileNode → List FileNode
  | [] => [x]
  | y :: ys => if y.size < x.size then x :: y :: ys else y :: insertBySize x ys

/-- Stable sort by descending `size` (insertion sort), embedding
`children.sort((a, b) => b.size - a.size)`. -/
def sortBySizeDesc : List FileNode → List FileNode
  | [] => []
  | x :: xs => insertBySize x (sortBySizeDesc xs)

theorem insertBySize_perm (x : FileNode) (l : List FileNode) :
    (insertBySize x l).Perm (x :: l) := by
  induction l with
  | nil => exact List.Perm.refl _
  | cons y ys ih =>
    rw [insertBySize]
    split
    · exact List.Perm.refl _
    · exact (List.Perm.cons y ih).trans (List.Perm.swap x y ys)

theorem sortBySizeDesc_perm (l : List FileNode) :
    (sortBySizeDesc l).Perm l := by
  induction l with
  | nil => exact List.Perm.refl _
  | cons x xs ih =>
    rw [sortBySizeDesc]
    exact (insertBySize_perm x (sortBySizeDesc xs)).trans (List.Perm.cons x ih)

/-- `buildTreeFromRegistry` (`stores.ts`): rebuild the output tree from
the registry.  The source recursion has no structural bound (a cyclic
`childrenMap` would not terminate), so the embedding takes explicit
`fuel`; for any fuel exceeding the depth of the reachable graph the
result is the function's value.  `children.sort((a, b) => b.size - a.size)`
is a stable sort by descending size, embedded as `sortBySizeDesc`. -/
def buildTreeFromRegistry (st : RegistryState) :
    Nat → String → Option FileNode
  | 0, _ => none
  | fuel + 1, rootPath =>
    match mapGet st.nodeRegistry rootPath with
    | none => none
    | some node =>
      if !node.is_directory then some node
      else
        let childPaths := (mapGet st.childrenMap rootPath).getD []
        let children :=
          childPaths.filterMap (fun cp => buildTreeFromRegistry st fuel cp)
        let totalSize := sumSizes children
        let sorted := sortBySizeDesc children
        some (.mk node.name node.path totalSize node.is_directory sorted
          node.file_type node.modified)

mutual

/-- The bottom-up aggregate invariant over a delivered tree: every
directory node's size equals the sum of its immediate children's sizes,
recursively (so a childless directory has size 0). -/
def sizeInvB : FileNode → Bool
  | .mk _ _ size isDir children _ _ =>
    (!isDir || size == sumSizes children) && sizeInvList children

/-- `sizeInvB` over every node of a list. -/
def sizeInvList : List FileNode → Bool
  | [] => true
  | c :: cs => sizeInvB c && sizeInvList cs

end

theorem sizeInvList_eq_true_iff (l : List FileNode) :
    sizeInvList l = true ↔ ∀ c ∈ l, sizeInvB c = true := by
  induction l with
  | nil => simp [sizeInvList]
  | cons c cs ih => simp [sizeInvList, ih]

theorem sumSizes_perm {l₁ l₂ : List FileNode} (h : l₁.Perm l₂) :
    sumSizes l₁ = sumSizes l₂ :=
  (h.map FileNode.size).sum_eq

/-- A registry populated only by `addNodeIncremental` stores every node
with an empty `children` field (the node literal in the source always
sets `children: []`). -/
def regChildrenNil (st : RegistryState) : Bool :=
  st.nodeRegistry.all (fun kn => kn.2.children.isEmpty)

theorem regChildrenNil_lookup {st : RegistryState} (h : regChildrenNil st = true)
    {k : String} {n : FileNode} (hm : mapGet st.nodeRegistry k = some n) :
    n.children = [] := by
  unfold mapGet at hm
  cases hfind : st.nodeRegistry.find? (fun p => p.1 == k) with
  | none => rw [hfind] at hm; simp at hm
  | some kn =>
    rw [hfind] at hm
    obtain rfl : kn.2 = n := by simpa using hm
    have hmem := List.mem_of_find?_eq_some hfind
    have := List.all_eq_true.mp h kn hmem
    exact List.isEmpty_iff.mp this

theorem buildTree_sizeInv (st : RegistryState) (hreg : regChildrenNil st = true) :
    ∀ fuel p t, buildTreeFromRegistry st fuel p = some t → sizeInvB t = true := by
  intro fuel
  induction fuel with
  | zero => intro p t h; simp [buildTreeFromRegistry] at h
  | succ fuel ih =>
    intro p t h
    rw [buildTreeFromRegistry] at h
    cases hm : mapGet st.nodeRegistry p with
    | none => rw [hm] at h; simp at h
    | some node =>
      rw [hm] at h
      obtain ⟨name, npath, nsize, ndir, nchildren, nft, nmod⟩ := node
      have hnil : nchildren = [] := by
        simpa [FileNode.children] using regChildrenNil_lookup hreg hm
      by_cases hdir : ndir = true
      · subst hdir
        simp only [FileNode.is_directory, Bool.not_true, Bool.false_eq_true,
          if_false] at h
        obtain rfl := Option.some.inj h
        simp only [sizeInvB, Bool.not_true, Bool.false_or, Bool.and_eq_true,
          beq_iff_eq]
        constructor
        · exact sumSizes_perm (sortBySizeDesc_perm _).symm
        · rw [sizeInvList_eq_true_iff]
          intro c hc
          have hc' : c ∈ (((mapGet st.childrenMap p).getD []).filterMap
              (fun cp => buildTreeFromRegistry st fuel cp)) :=
            (sortBySizeDesc_perm _).mem_iff.mp hc
          obtain ⟨cp, _, hcp⟩ := List.mem_filterMap.mp hc'
          exact ih cp c hcp
      · have hdir' : ndir = false := by
          cases ndir
          · rfl
          · exact absurd rfl hdir
        subst hdir'
        simp only [FileNode.is_directory, Bool.not_false, if_true] at h
        obtain rfl := Option.some.inj h
        simp [sizeInvB, hnil, sizeInvList]

/-- One `addNodeIncremental` call, as a record of its arguments. -/
structure AddOp where
  path : String
  parentPath : Option String
  name : String
  size : Nat
  isDirectory : Bool
  fileType : FileType
  now : Nat
deriving DecidableEq, Repr

def applyAdd (st : RegistryState) (op : AddOp) : RegistryState :=
  addNodeIncremental st op.path op.parentPath op.name op.size
    op.isDirectory op.fileType op.now

/-- Run a whole sequence of `addNodeIncremental` calls. -/
def applyAdds (st : RegistryState) (ops : List AddOp) : RegistryState :=
  ops.foldl applyAdd st

/-- The spec's scenario: a root directory holding three files of 100,
200 and 300 bytes and one subdirectory holding a single 50-byte file,
registered in discovery order. -/
def scenarioAdds : List AddOp :=
  [ ⟨"r", none, "r", 0, true, .other, 0⟩,
    ⟨"r/a", some "r", "a", 100, false, .document, 0⟩,
    ⟨"r/b", some "r", "b", 200, false, .document, 0⟩,
    ⟨"r/c", some "r", "c", 300, false, .document, 0⟩,
    ⟨"r/s", some "r", "s", 0, true, .other, 0⟩,
    ⟨"r/s/f", some "r/s", "f", 50, false, .document, 0⟩ ]

/-- The scenario's acceptance check: building from the registry left by
`ops` yields a root of aggregate size 650 whose subdirectory node
reports size 50. -/
def scenarioOk (ops : List AddOp) : Bool :=
  match buildTreeFromRegistry (applyAdds RegistryState.empty ops) 4 "r" with
  | none => false
  | some t =>
    t.size == 650 &&
      ((t.children.find? (fun c => c.path == "r/s")).map FileNode.size
        == some 50)

/-- The registry state left by registering the scenario in its canonical
order. -/
def scenarioState : RegistryState := applyAdds RegistryState.empty scenarioAdds

/-- The tree `buildTreeFromRegistry` delivers for the scenario registry
(children sorted by descending size). -/
def scenarioTree : FileNode :=
  .mk "r" "r" 650 true
    [ .mk "c" "r/c" 300 false [] .document 0,
      .mk "b" "r/b" 200 false [] .document 0,
      .mk "a" "r/a" 100 false [] .document 0,
      .mk "s" "r/s" 50 true [.mk "f" "r/s/f" 50 false [] .document 0] .other 0 ]
    .other 0

/-- C1: for every registry populated by `addNodeIncremental` and every
root path present in it, the tree returned by `buildTreeFromRegistry`
satisfies the bottom-up aggregate invariant: every directory node's size
equals the sum of its immediate children's sizes in the returned tree,
recursively down to leaf files; a file keeps its registered node, and a
childless directory has size 0. -/
theorem buildTreeFromRegistry_bottom_up_aggregate
    (st : RegistryState) (fuel : Nat) (p : String) (t : FileNode)
    (hreg : regChildrenNil st = true)
    (h : buildTreeFromRegistry st fuel p = some t) :
    sizeInvB t = true
      ∧ (∀ node, mapGet st.nodeRegistry p = some node →
          node.is_directory = false → t = node)
      ∧ (t.is_directory = true → t.children = [] → t.size = 0) := by
  refine ⟨buildTree_sizeInv st hreg fuel p t h, ?_, ?_⟩
  · intro node hnode hfile
    cases fuel with
    | zero => simp [buildTreeFromRegistry] at h
    | succ fuel =>
      rw [buildTreeFromRegistry, hnode] at h
      simp only [hfile, Bool.not_false, if_true] at h
      exact (Option.some.inj h).symm
  · intro hdir hnil
    have hInv := buildTree_sizeInv st hreg fuel p t h
    obtain ⟨name, npath, nsize, ndir, nchildren, nft, nmod⟩ := t
    simp only [FileNode.is_directory] at hdir
    simp only [FileNode.children] at hnil
    subst hdir
    subst hnil
    simp only [sizeInvB, sizeInvList, Bool.not_true, Bool.false_or,
      Bool.and_true, beq_iff_eq, sumSizes, List.map_nil, List.sum_nil] at hInv
    simpa [FileNode.size] using hInv

/-- Witness for C1 at the scenario registry. -/
theorem buildTreeFromRegistry_bottom_up_aggregate_witness :
    regChildrenNil scenarioState = true
      ∧ buildTreeFromRegistry scenarioState 4 "r" = some scenarioTree
      ∧ (sizeInvB scenarioTree = true
          ∧ (∀ node, mapGet scenarioState.nodeRegistry "r" = some node →
              node.is_directory = false → scenarioTree = node)
          ∧ (scenarioTree.is_directory = true → scenarioTree.children = [] →
              scenarioTree.size = 0)) :=
  ⟨by decide, rfl,
    buildTreeFromRegistry_bottom_up_aggregate scenarioState 4 "r" scenarioTree
      (by decide) rfl⟩

/-- C2: registering the scenario's six nodes in any order and building
from the registry yields a root of aggregate size 650 whose subdirectory
node reports size 50. -/
theorem scenario_sizes_any_insertion_order
    (l : List AddOp) (h : l.Perm scenarioAdds) :
    ∃ t, buildTreeFromRegistry (applyAdds RegistryState.empty l) 4 "r" = some t
      ∧ t.size = 650
      ∧ (t.children.find? (fun c => c.path == "r/s")).map FileNode.size
          = some 50 := by
  have hall : ∀ l' ∈ scenarioAdds.permutations', scenarioOk l' = true := by
    decide
  have hok : scenarioOk l = true := hall l (List.mem_permutations'.mpr h)
  unfold scenarioOk at hok
  cases hbuild : buildTreeFromRegistry (applyAdds RegistryState.empty l) 4 "r" with
  | none => rw [hbuild] at hok; simp at hok
  | some t =>
    rw [hbuild] at hok
    simp only [Bool.and_eq_true, beq_iff_eq] at hok
    exact ⟨t, rfl, hok.1, hok.2⟩

/-- Witness for C2 at the canonical insertion order. -/
theorem scenario_sizes_any_insertion_order_witness :
    scenarioAdds.Perm scenarioAdds
      ∧ ∃ t, buildTreeFromRegistry (applyAdds RegistryState.empty scenarioAdds)
            4 "r" = some t
          ∧ t.size = 650
          ∧ (t.children.find? (fun c => c.path == "r/s")).map FileNode.size
              = some 50 :=
  ⟨List.Perm.refl _,
    scenario_sizes_any_insertion_order scenarioAdds (List.Perm.refl _)⟩

/-- C4: building the output tree is a deterministic function of the
registry contents: two registries whose node map and children map agree
pointwise (in particular, the same registry twice) produce identical
trees, hence identical aggregate totals at every node. -/
theorem buildTreeFromRegistry_deterministic
    (st₁ st₂ : RegistryState)
    (hreg : ∀ k, mapGet st₁.nodeRegistry k = mapGet st₂.nodeRegistry k)
    (hcm : ∀ k, mapGet st₁.childrenMap k = mapGet st₂.childrenMap k) :
    ∀ fuel p, buildTreeFromRegistry st₁ fuel p
      = buildTreeFromRegistry st₂ fuel p := by
  intro fuel
  induction fuel with
  | zero => intro p; rfl
  | succ fuel ih =>
    intro p
    have hfun : (fun cp => buildTreeFromRegistry st₁ fuel cp)
        = (fun cp => buildTreeFromRegistry st₂ fuel cp) := funext ih
    rw [buildTreeFromRegistry, buildTreeFromRegistry, hreg p, hcm p, hfun]

/-- Witness for C4 at the scenario registry. -/
theorem buildTreeFromRegistry_deterministic_witness :
    (∀ k, mapGet scenarioState.nodeRegistry k
        = mapGet scenarioState.nodeRegistry k)
      ∧ buildTreeFromRegistry scenarioState 4 "r"
          = buildTreeFromRegistry scenarioState 4 "r" :=
  ⟨fun _ => rfl,
    buildTreeFromRegistry_deterministic scenarioState scenarioState
      (fun _ => rfl) (fun _ => rfl) 4 "r"⟩

theorem mem_mapSet {α : Type} (m : List (String × α)) (k : String) (v : α) :
    ∀ kn ∈ mapSet m k v, kn ∈ m ∨ kn = (k, v) := by
  intro kn hkn
  unfold mapSet at hkn
  split at hkn
  · obtain ⟨p, hp, hpe⟩ := List.mem_map.mp hkn
    by_cases hpk : p.1 = k
    · right
      rw [← hpe, if_pos (by simp [hpk])]
    · left
      rw [← hpe, if_neg (by simp [hpk])]
      exact hp
  · rcases List.mem_append.mp hkn with h | h
    · left; exact h
    · right; simpa using h

/-- Every registry reachable by `addNodeIncremental` calls satisfies
`regChildrenNil`: the node literal in the source always sets
`children: []`. -/
theorem applyAdds_regChildrenNil (ops : List AddOp) :
    ∀ st, regChildrenNil st = true →
      regChildrenNil (applyAdds st ops) = true := by
  induction ops with
  | nil => intro st h; exact h
  | cons op ops ih =>
    intro st h
    show regChildrenNil (applyAdds (applyAdd st op) ops) = true
    apply ih
    unfold regChildrenNil at h ⊢
    rw [List.all_eq_true] at h ⊢
    intro kn hkn
    rcases mem_mapSet st.nodeRegistry op.path _ kn hkn with hmem | heq
    · exact h kn hmem
    · rw [heq]
      rfl

theorem applyAdd_nodeRegistry_get (st : RegistryState) (op : AddOp) (k : String) :
    mapGet (applyAdd st op).nodeRegistry k
      = if k == op.path
          then some (.mk op.name op.path op.size op.isDirectory [] op.fileType
            op.now)
          else mapGet st.nodeRegistry k := by
  unfold applyAdd addNodeIncremental
  exact mapGet_mapSet st.nodeRegistry op.path k _

theorem applyAdd_childrenMap_grow (st : RegistryState) (op : AddOp) (k : String)
    (l : List String) (h : mapGet st.childrenMap k = some l) :
    ∃ ext, mapGet (applyAdd st op).childrenMap k = some (l ++ ext) := by
  unfold applyAdd addNodeIncremental
  cases hpar : op.parentPath with
  | none => exact ⟨[], by simpa using h⟩
  | some pp =>
    by_cases hpp : pp.isEmpty
    · simp only [hpp, if_true]
      exact ⟨[], by simpa using h⟩
    · simp only [hpp, Bool.false_eq_true, if_false]
      rw [mapGet_mapSet]
      by_cases hk : k = pp
      · subst hk
        rw [h]
        exact ⟨[op.path], by simp⟩
      · rw [if_neg (by simp [hk])]
        exact ⟨[], by simpa using h⟩

theorem applyAdds_nodeRegistry_mono (ops : List AddOp) :
    ∀ st k, (mapGet st.nodeRegistry k).isSome = true →
      (mapGet (applyAdds st ops).nodeRegistry k).isSome = true := by
  induction ops with
  | nil => intro st k h; exact h
  | cons op ops ih =>
    intro st k h
    show (mapGet (applyAdds (applyAdd st op) ops).nodeRegistry k).isSome = true
    apply ih
    rw [applyAdd_nodeRegistry_get]
    split
    · rfl
    · exact h

theorem applyAdds_childrenMap_mono (ops : List AddOp) :
    ∀ st k l, mapGet st.childrenMap k = some l →
      ∃ ext, mapGet (applyAdds st ops).childrenMap k = some (l ++ ext) := by
  induction ops with
  | nil => intro st k l h; exact ⟨[], by simpa using h⟩
  | cons op ops ih =>
    intro st k l h
    obtain ⟨e1, h1⟩ := applyAdd_childrenMap_grow st op k l h
    obtain ⟨e2, h2⟩ := ih (applyAdd st op) k (l ++ e1) h1
    refine ⟨e1 ++ e2, ?_⟩
    show mapGet (applyAdds (applyAdd st op) ops).childrenMap k = _
    rw [h2, List.append_assoc]

/-- C7 (amended): during a session the registry and the children index
are monotone — every registered path stays present (though a re-added
path's record is replaced in place rather than preserved) and every
parent's child list only ever grows by appending; entries are removed
only by `clearIncrementalState`, which resets both maps to empty. -/
theorem addNodeIncremental_append_only (st : RegistryState) (ops : List AddOp) :
    (∀ k, (mapGet st.nodeRegistry k).isSome = true →
        (mapGet (applyAdds st ops).nodeRegistry k).isSome = true)
      ∧ (∀ k l, mapGet st.childrenMap k = some l →
          ∃ ext, mapGet (applyAdds st ops).childrenMap k = some (l ++ ext))
      ∧ (clearIncrementalState (applyAdds st ops)).nodeRegistry = []
      ∧ (clearIncrementalState (applyAdds st ops)).childrenMap = [] :=
  ⟨fun k => applyAdds_nodeRegistry_mono ops st k,
    fun k l => applyAdds_childrenMap_mono ops st k l, rfl, rfl⟩

/-- Witness for the amended C7 at the scenario registry plus one more
add. -/
theorem addNodeIncremental_append_only_witness :
    (mapGet (applyAdds scenarioState
        [⟨"r/x", some "r", "x", 7, false, .other, 0⟩]).nodeRegistry "r").isSome
        = true
      ∧ ∃ ext, mapGet (applyAdds scenarioState
          [⟨"r/x", some "r", "x", 7, false, .other, 0⟩]).childrenMap "r"
          = some (["r/a", "r/b", "r/c", "r/s"] ++ ext) :=
  ⟨(addNodeIncremental_append_only scenarioState
      [⟨"r/x", some "r", "x", 7, false, .other, 0⟩]).1 "r" (by decide),
    (addNodeIncremental_append_only scenarioState
      [⟨"r/x", some "r", "x", 7, false, .other, 0⟩]).2.1 "r"
      ["r/a", "r/b", "r/c", "r/s"] (by decide)⟩

/-- Counterexample to C7 as stated: re-registering an already present
path replaces its node record (here the size changes from 1 to 2), so a
path is not always "still present with the same node record" after a
later call. -/
theorem addNodeIncremental_overwrites_record :
    (mapGet (applyAdds RegistryState.empty
        [⟨"p", none, "p", 1, false, .other, 0⟩]).nodeRegistry "p").map
        FileNode.size = some 1
      ∧ (mapGet (applyAdds RegistryState.empty
          [⟨"p", none, "p", 1, false, .other, 0⟩,
           ⟨"p", none, "p", 2, false, .other, 0⟩]).nodeRegistry "p").map
          FileNode.size = some 2
      ∧ mapGet (applyAdds RegistryState.empty
          [⟨"p", none, "p", 1, false, .other, 0⟩,
           ⟨"p", none, "p", 2, false, .other, 0⟩]).nodeRegistry "p"
        ≠ mapGet (applyAdds RegistryState.empty
            [⟨"p", none, "p", 1, false, .other, 0⟩]).nodeRegistry "p" := by
  refine ⟨by decide, by decide, fun h => ?_⟩
  have h2 := congrArg (Option.map FileNode.size) h
  exact absurd h2 (by decide)

/-! ## `scanService.ts`: resumability classification -/

/-- `pat` is an initial run of the second list, character by character. -/
def startsWith : List Char → List Char → Bool
  | [], _ => true
  | _ :: _, [] => false
  | p :: ps, c :: cs => p == c && startsWith ps cs

/-- `pat` occurs contiguously somewhere in the second list. -/
def hasSub (pat : List Char) : List Char → Bool
  | [] => startsWith pat []
  | c :: cs => startsWith pat (c :: cs) || hasSub pat cs

/-- JavaScript `String.prototype.includes`: substring containment over
the underlying character sequences. -/
def strIncludes (s pat : String) : Bool := hasSub pat.toList s.toList

/-- The `resumablePatterns` array in `isResumableError`
(`scanService.ts`). -/
def resumablePatterns : List String :=
  ["permission denied", "access denied", "temporarily unavailable",
    "resource busy"]

/-- `isResumableError` (`scanService.ts`): an error message is resumable
when its lowercased text contains one of the four patterns. -/
def isResumableError (errorMessage : String) : Bool :=
  let lowerMessage := errorMessage.toLower
  resumablePatterns.any (fun pat => strIncludes lowerMessage pat)

/-! ## `types.ts`: the streaming event union -/

/-- `NodeStats` from `types.ts`. -/
structure NodeStats where
  file_count : Nat
  total_size : Nat
deriving DecidableEq, Repr

/-- `StreamingScanEvent` from `types.ts`: the discriminated union of
signals delivered on the `streaming-scan-event` channel. -/
inductive StreamingScanEvent where
  | node_discovered (node : FileNode) (stats : NodeStats)
      (parent_path : Option String)
  | progress (files_scanned : Nat) (total_size : Nat) (current_path : String)
  | complete (files_scanned : Nat) (total_size : Nat)

/-! ## `stores.ts`: application store state and actions -/

inductive ToastType where
  | success
  | error
  | warning
  | info
deriving DecidableEq, Repr

structure Toast where
  id : String
  toastType : ToastType
  title : Option String
  message : String
  duration : Nat
deriving DecidableEq, Repr

inductive LocationType where
  | storage
  | network
  | folder
deriving DecidableEq, Repr

/-- `StorageLocation` from `types.ts`. -/
structure StorageLocation where
  name : String
  path : String
  location_type : LocationType
  total_space : Option Nat
  available_space : Option Nat
deriving DecidableEq, Repr

/-- `ScanProgress` from `types.ts`. -/
structure ScanProgress where
  current_path : String
  files_scanned : Nat
  total_size : Nat
deriving DecidableEq, Repr

/-- The store atoms of `stores.ts` that the embedded actions read or
write, plus a counter for `perfMonitor.start('scan-operation')` calls
(so "a new scan was started" is observable) and a flag recording that
`cancel_scan_command` reached the backend. -/
structure AppState where
  scanTarget : Option String
  selectedLocation : Option StorageLocation
  isScanning : Bool
  scanProgress : Option ScanProgress
  scanResult : Option FileNode
  currentView : Option FileNode
  scanError : Option String
  canResumeScan : Bool
  scanCache : List (String × FileNode)
  toasts : List Toast
  toastIdCounter : Nat
  perfScanStarts : Nat
  perfScanEnds : Nat
  backendCancelSignalled : Bool

/-- The store state at module load: every atom at its initial value. -/
def initialAppState : AppState :=
  ⟨none, none, false, none, none, none, none, false, [], [], 0, 0, 0, false⟩

/-- `showToast` (`stores.ts`). -/
def showToast (st : AppState) (t : ToastType) (title : Option String)
    (message : String) (duration : Nat) : AppState :=
  let id := "toast-" ++ toString st.toastIdCounter
  { st with toastIdCounter := st.toastIdCounter + 1,
            toasts := st.toasts ++ [⟨id, t, title, message, duration⟩] }

/-- `hasCachedScan` (`stores.ts`): `path in cache`. -/
def hasCachedScan (st : AppState) (path : String) : Bool :=
  st.scanCache.any (fun p => p.1 == path)

/-- `getCachedScan` (`stores.ts`): `cache[path] || null` (a stored
`FileNode` object is always truthy). -/
def getCachedScan (st : AppState) (path : String) : Option FileNode :=
  mapGet st.scanCache path

/-- `cacheScanResult` (`stores.ts`). -/
def cacheScanResult (st : AppState) (path : String) (result : FileNode) :
    AppState :=
  { st with scanCache := mapSet st.scanCache path result }

/-- `startScan` (`stores.ts`). -/
def startScan (st : AppState) (path : String) : AppState :=
  { st with perfScanStarts := st.perfScanStarts + 1,
            scanTarget := some path,
            isScanning := true,
            scanProgress := none,
            scanResult := none,
            currentView := none,
            scanError := none,
            canResumeScan := false }

/-- `completeScan` (`stores.ts`): record the result, stop scanning, and
cache it under the current scan target when that target is truthy. -/
def completeScan (st : AppState) (result : FileNode) : AppState :=
  let st1 := { st with perfScanEnds := st.perfScanEnds + 1,
                       scanResult := some result,
                       currentView := some result,
                       isScanning := false }
  match st1.scanTarget with
  | some p => if p.isEmpty then st1 else cacheScanResult st1 p result
  | none => st1

/-- `selectLocation` (`stores.ts`): restore from cache when possible,
otherwise start a scan. -/
def selectLocation (st : AppState) (location : StorageLocation)
    (forceRescan : Bool) : AppState :=
  let st1 := { st with selectedLocation := some location }
  if !forceRescan && hasCachedScan st1 location.path then
    match getCachedScan st1 location.path with
    | some cached =>
      showToast
        { st1 with scanResult := some cached,
                   currentView := some cached,
                   scanTarget := some location.path }
        .info (some "Loaded from Cache")
        "Using previously scanned data. Click \x22Rescan\x22 to refresh." 5000
    | none => startScan st1 location.path
  else startScan st1 location.path

/-- `cancelScan` (`stores.ts`): ask the backend to cancel, then clear
the scan flags; when the backend call fails only the scanning flag is
cleared and a warning toast is shown.  `backendOk` stands for whether
`invoke('cancel_scan_command')` succeeded. -/
def cancelScan (st : AppState) (backendOk : Bool) : AppState :=
  if backendOk then
    let st1 := { st with backendCancelSignalled := true }
    let st2 := { st1 with isScanning := false,
                          scanError := none,
                          canResumeScan := false }
    showToast st2 .info (some "Scan Cancelled")
      "The scan operation was cancelled." 5000
  else
    let st1 := { st with isScanning := false }
    showToast st1 .warning (some "Scan Stopped")
      "The scan was stopped but may still be running in the background." 5000

/-- The scan-related components of the store state named by C6: the
scanning flag, the scan error, the resume flag, and whether cancellation
was signalled to the backend. -/
def scanCancelView (st : AppState) : Bool × Option String × Bool × Bool :=
  (st.isScanning, st.scanError, st.canResumeScan, st.backendCancelSignalled)

/-- C5: an error message is classified resumable exactly when its
lowercased text contains one of the permission/access-denial or
transient-unavailability/busy-resource patterns; every other message is
non-resumable. -/
theorem isResumableError_iff (msg : String) :
    isResumableError msg = true ↔
      (strIncludes msg.toLower "permission denied" = true
        ∨ strIncludes msg.toLower "access denied" = true
        ∨ strIncludes msg.toLower "temporarily unavailable" = true
        ∨ strIncludes msg.toLower "resource busy" = true) := by
  simp [isResumableError, resumablePatterns, List.any_cons, List.any_nil,
    Bool.or_eq_true]

/-- C6: `cancelScan` is idempotent on the scan-related state — for every
starting state and backend outcome, running it twice leaves the scanning
flag, scan error, resume flag and backend-cancellation signal equal to
their values after running it once. -/
theorem cancelScan_idempotent (st : AppState) (backendOk : Bool) :
    scanCancelView (cancelScan (cancelScan st backendOk) backendOk)
      = scanCancelView (cancelScan st backendOk) := by
  cases backendOk <;> rfl

/-- C9: every signal on the streaming scan channel is one of exactly the
three declared variants — `progress`, `node_discovered`, `complete`. -/
theorem streamingScanEvent_three_variants (e : StreamingScanEvent) :
    (∃ fs ts cp, e = .progress fs ts cp)
      ∨ (∃ node stats pp, e = .node_discovered node stats pp)
      ∨ (∃ fs ts, e = .complete fs ts) := by
  cases e with
  | node_discovered n s p => exact .inr (.inl ⟨n, s, p, rfl⟩)
  | progress a b c => exact .inl ⟨a, b, c, rfl⟩
  | complete a b => exact .inr (.inr ⟨a, b, rfl⟩)

theorem mapGet_some_any {α : Type} (m : List (String × α)) (k : String)
    {v : α} (h : mapGet m k = some v) :
    m.any (fun p => p.1 == k) = true := by
  unfold mapGet at h
  cases hf : m.find? (fun p => p.1 == k) with
  | none => rw [hf] at h; simp at h
  | some kn =>
    exact List.any_eq_true.mpr
      ⟨kn, List.mem_of_find?_eq_some hf,
        @List.find?_some _ (fun q => q.1 == k) kn m hf⟩

/-- C10: a scan completed while the scan target is a (truthy) path `p`
is stored in the cache under `p`, and a subsequent `selectLocation` of
`p` without `forceRescan` restores exactly that result as the scan
result and current view, without starting a new scan. -/
theorem completeScan_cache_round_trip (st : AppState) (r : FileNode)
    (p : String) (loc : StorageLocation)
    (htarget : st.scanTarget = some p) (hne : p ≠ "") (hloc : loc.path = p) :
    getCachedScan (completeScan st r) p = some r
      ∧ (selectLocation (completeScan st r) loc false).scanResult = some r
      ∧ (selectLocation (completeScan st r) loc false).currentView = some r
      ∧ (selectLocation (completeScan st r) loc false).scanTarget = some p
      ∧ (selectLocation (completeScan st r) loc false).isScanning = false
      ∧ (selectLocation (completeScan st r) loc false).perfScanStarts
          = (completeScan st r).perfScanStarts := by
  have hempty : p.isEmpty = false := by
    cases hcase : p.isEmpty
    · rfl
    · exact absurd ((String.isEmpty_iff p).mp hcase) hne
  have hcomplete : completeScan st r
      = cacheScanResult
          { st with perfScanEnds := st.perfScanEnds + 1,
                    scanResult := some r,
                    currentView := some r,
                    isScanning := false } p r := by
    unfold completeScan
    rw [htarget]
    simp [hempty]
  have hcache : getCachedScan (completeScan st r) p = some r := by
    rw [hcomplete]
    unfold getCachedScan cacheScanResult
    rw [mapGet_mapSet]
    simp
  refine ⟨hcache, ?_⟩
  have hhas : hasCachedScan
      { completeScan st r with selectedLocation := some loc } loc.path
      = true := by
    rw [hloc]
    exact mapGet_some_any _ _ hcache
  have hget : getCachedScan
      { completeScan st r with selectedLocation := some loc } loc.path
      = some r := by
    rw [hloc]
    exact hcache
  have hsel : selectLocation (completeScan st r) loc false
      = showToast
          { completeScan st r with
              selectedLocation := some loc,
              scanResult := some r,
              currentView := some r,
              scanTarget := some loc.path }
          .info (some "Loaded from Cache")
          "Using previously scanned data. Click \x22Rescan\x22 to refresh."
          5000 := by
    simp only [selectLocation, Bool.not_false, Bool.true_and, hhas, if_true,
      hget]
  rw [hsel, hcomplete, hloc]
  refine ⟨rfl, rfl, rfl, rfl, rfl⟩

/-- Witness for C10: complete a scan of `"r"` from a freshly started
store and reselect the same location. -/
theorem completeScan_cache_round_trip_witness :
    (startScan initialAppState "r").scanTarget = some "r"
      ∧ ("r" : String) ≠ ""
      ∧ (getCachedScan (completeScan (startScan initialAppState "r")
            scenarioTree) "r" = some scenarioTree
        ∧ (selectLocation (completeScan (startScan initialAppState "r")
            scenarioTree) ⟨"root", "r", .folder, none, none⟩ false).scanResult
            = some scenarioTree
        ∧ (selectLocation (completeScan (startScan initialAppState "r")
            scenarioTree) ⟨"root", "r", .folder, none, none⟩ false).currentView
            = some scenarioTree
        ∧ (selectLocation (completeScan (startScan initialAppState "r")
            scenarioTree) ⟨"root", "r", .folder, none, none⟩ false).scanTarget
            = some "r"
        ∧ (selectLocation (completeScan (startScan initialAppState "r")
            scenarioTree) ⟨"root", "r", .folder, none, none⟩ false).isScanning
            = false
        ∧ (selectLocation (completeScan (startScan initialAppState "r")
            scenarioTree) ⟨"root", "r", .folder, none, none⟩
            false).perfScanStarts
            = (completeScan (startScan initialAppState "r")
                scenarioTree).perfScanStarts) :=
  ⟨rfl, by decide,
    completeScan_cache_round_trip (startScan initialAppState "r") scenarioTree
      "r" ⟨"root", "r", .folder, none, none⟩ rfl (by decide) rfl⟩

/-! ## Spec-modelled Rust backend: inode deduplication (§4.2) -/

/-- Hard-link identity: the platform (device id, inode) pair of a
storage object. -/
structure InodeKey where
  dev : Nat
  ino : Nat
deriving DecidableEq, Repr

/-- Modelled from the spec: the Rust scanner's `DeduplicationTracker` is
not among the frontend sources; per §4.2 it is a shared set keyed by
(device_id, inode) whose atomic insert-if-absent is the dedup test, so a
path whose key was already seen contributes nothing to the totals.
`meta` gives each discovered path its (device, inode) identity and
`sizeOfKey` the allocated size of that storage object (hard links to one
object share both).  `dedupTotal` folds a discovery sequence through the
tracker, accumulating the aggregate total. -/
def dedupTotal (meta : String → InodeKey) (sizeOfKey : InodeKey → Nat) :
    List String → Finset InodeKey → Nat
  | [], _ => 0
  | p :: ps, seen =>
    if meta p ∈ seen then dedupTotal meta sizeOfKey ps seen
    else sizeOfKey (meta p)
      + dedupTotal meta sizeOfKey ps (insert (meta p) seen)

theorem dedupTotal_eq_sum (meta : String → InodeKey)
    (sizeOfKey : InodeKey → Nat) :
    ∀ (l : List String) (seen : Finset InodeKey),
      dedupTotal meta sizeOfKey l seen
        = ∑ k ∈ (l.map meta).toFinset \ seen, sizeOfKey k := by
  intro l
  induction l with
  | nil => intro seen; simp [dedupTotal]
  | cons p ps ih =>
    intro seen
    rw [dedupTotal]
    by_cases hmem : meta p ∈ seen
    · rw [if_pos hmem, ih]
      congr 1
      ext k
      by_cases hk : k = meta p <;> simp [hk, hmem]
    · rw [if_neg hmem, ih]
      have hset : (insert (meta p) (ps.map meta).toFinset) \ seen
          = insert (meta p) ((ps.map meta).toFinset \ insert (meta p) seen) := by
        ext k
        by_cases hk : k = meta p <;> simp [hk, hmem]
      rw [List.map_cons, List.toFinset_cons, hset,
        Finset.sum_insert (by simp)]

/-- C8: under insert-if-absent deduplication, two paths that are hard
links to the same (device, inode) storage object contribute its size
exactly once to a scan's aggregate total, and the total is independent
of the order in which the paths are discovered. -/
theorem dedup_counts_hard_links_once
    (meta : String → InodeKey) (sizeOfKey : InodeKey → Nat)
    (p₁ p₂ : String) (rest l l' : List String)
    (hlink : meta p₁ = meta p₂) (hperm : l.Perm l') :
    dedupTotal meta sizeOfKey (p₁ :: p₂ :: rest) ∅
        = dedupTotal meta sizeOfKey (p₁ :: rest) ∅
      ∧ dedupTotal meta sizeOfKey l ∅ = dedupTotal meta sizeOfKey l' ∅ := by
  constructor
  · rw [dedupTotal_eq_sum, dedupTotal_eq_sum]
    congr 1
    simp [List.map_cons, List.toFinset_cons, hlink, Finset.insert_idem]
  · rw [dedupTotal_eq_sum, dedupTotal_eq_sum]
    congr 1
    rw [List.toFinset_eq_of_perm _ _ (hperm.map meta)]

/-- Witness for C8: two hard links to one 4096-byte object, discovered
in either order. -/
theorem dedup_counts_hard_links_once_witness :
    (fun _ : String => InodeKey.mk 1 42) "a"
        = (fun _ : String => InodeKey.mk 1 42) "b"
      ∧ (dedupTotal (fun _ => InodeKey.mk 1 42) (fun _ => 4096)
            ["a", "b"] ∅
          = dedupTotal (fun _ => InodeKey.mk 1 42) (fun _ => 4096) ["a"] ∅
        ∧ dedupTotal (fun _ => InodeKey.mk 1 42) (fun _ => 4096) ["b"] ∅
          = dedupTotal (fun _ => InodeKey.mk 1 42) (fun _ => 4096) ["b"] ∅) :=
  ⟨rfl,
    dedup_counts_hard_links_once (fun _ => InodeKey.mk 1 42) (fun _ => 4096)
      "a" "b" [] ["b"] ["b"] rfl (List.Perm.refl _)⟩

/-! ## Spec-modelled Rust backend: depth-bounded lazy tree builder (§4.5) -/

/-- Modelled from the spec: `DiscoveredNode`, the Rust scanner's registry
record (§3); only the fields the tree builder reads are kept. -/
structure DiscoveredNode where
  name : String
  parent_path : Option String
  is_directory : Bool
  size_bytes : Nat
  file_type : FileType
  modified : Nat
deriving DecidableEq, Repr

/-- Modelled from the spec: `calculate_dir_size_lazy` of the Rust lazy
tree builder is not among the frontend sources; per §4.5 a directory's
aggregate size is computed bottom-up over the whole registry subtree
with no presentation-depth cutoff (the size cache only memoizes, which
cannot change the value).  `fuel` bounds the recursion over the finite
registry graph. -/
def calculate_dir_size_lazy (reg : List (String × DiscoveredNode))
    (cm : List (String × List String)) : Nat → String → Nat
  | 0, _ => 0
  | fuel + 1, path =>
    match mapGet reg path with
    | none => 0
    | some node =>
      if !node.is_directory then node.size_bytes
      else (((mapGet cm path).getD []).map
        (calculate_dir_size_lazy reg cm fuel)).sum

/-- Modelled from the spec: `build_tree_recursive_lazy` of the Rust lazy
tree builder is not among the frontend sources; per §4.5 it returns
`None` once `current_depth` reaches `max_depth`, otherwise delivers the
node with its full aggregate size and its children built one level
deeper.  `sizeFuel` and `fuel` bound the recursions over the finite
registry graph. -/
def build_tree_recursive_lazy (reg : List (String × DiscoveredNode))
    (cm : List (String × List String)) (sizeFuel : Nat) :
    Nat → String → Nat → Nat → Option FileNode
  | 0, _, _, _ => none
  | fuel + 1, path, currentDepth, maxDepth =>
    if maxDepth ≤ currentDepth then none
    else
      match mapGet reg path with
      | none => none
      | some node =>
        let size := if node.is_directory
          then calculate_dir_size_lazy reg cm sizeFuel path
          else node.size_bytes
        let children := if node.is_directory
          then ((mapGet cm path).getD []).filterMap
            (fun cp => build_tree_recursive_lazy reg cm sizeFuel fuel cp
              (currentDepth + 1) maxDepth)
          else []
        some (.mk node.name path size node.is_directory children
          node.file_type node.modified)

/-- The default presentation depth: the root plus two levels of
children (§4.5). -/
def defaultMaxDepth : Nat := 3

mutual

/-- The delivered tree reaches at most `d` levels (a lone root counts
as one level). -/
def heightLe : FileNode → Nat → Bool
  | _, 0 => false
  | .mk _ _ _ _ children _ _, d + 1 => heightLeList children d

/-- `heightLe` over every tree in a list. -/
def heightLeList : List FileNode → Nat → Bool
  | [], _ => true
  | c :: cs, d => heightLe c d && heightLeList cs d

end

mutual

/-- Every node of a delivered tree carries its full-registry aggregate:
a directory's size is `calculate_dir_size_lazy` at its path (no depth
cutoff), a file's size is its registered size. -/
def lazySizesOk (reg : List (String × DiscoveredNode))
    (cm : List (String × List String)) (sizeFuel : Nat) : FileNode → Bool
  | .mk _ path size _ children _ _ =>
    (match mapGet reg path with
      | none => false
      | some node =>
        size == (if node.is_directory
          then calculate_dir_size_lazy reg cm sizeFuel path
          else node.size_bytes))
      && lazySizesOkList reg cm sizeFuel children

/-- `lazySizesOk` over every tree in a list. -/
def lazySizesOkList (reg : List (String × DiscoveredNode))
    (cm : List (String × List String)) (sizeFuel : Nat) :
    List FileNode → Bool
  | [] => true
  | c :: cs => lazySizesOk reg cm sizeFuel c
      && lazySizesOkList reg cm sizeFuel cs

end

theorem lazySizesOkList_eq_true_iff (reg : List (String × DiscoveredNode))
    (cm : List (String × List String)) (sizeFuel : Nat) (l : List FileNode) :
    lazySizesOkList reg cm sizeFuel l = true
      ↔ ∀ c ∈ l, lazySizesOk reg cm sizeFuel c = true := by
  induction l with
  | nil => simp [lazySizesOkList]
  | cons c cs ih => simp [lazySizesOkList, ih]

theorem heightLeList_eq_true_iff (l : List FileNode) (d : Nat) :
    heightLeList l d = true ↔ ∀ c ∈ l, heightLe c d = true := by
  induction l with
  | nil => simp [heightLeList]
  | cons c cs ih => simp [heightLeList, ih]

theorem build_lazy_bounded_and_sized (reg : List (String × DiscoveredNode))
    (cm : List (String × List String)) (sizeFuel : Nat) :
    ∀ fuel path currentDepth maxDepth t,
      build_tree_recursive_lazy reg cm sizeFuel fuel path currentDepth
          maxDepth = some t →
        heightLe t (maxDepth - currentDepth) = true
          ∧ lazySizesOk reg cm sizeFuel t = true := by
  intro fuel
  induction fuel with
  | zero => intro path cd md t h; simp [build_tree_recursive_lazy] at h
  | succ fuel ih =>
    intro path cd md t h
    rw [build_tree_recursive_lazy] at h
    by_cases hcd : md ≤ cd
    · rw [if_pos hcd] at h; simp at h
    · rw [if_neg hcd] at h
      cases hm : mapGet reg path with
      | none => rw [hm] at h; simp at h
      | some node =>
        rw [hm] at h
        obtain rfl := Option.some.inj h
        have hsub : md - cd = (md - (cd + 1)) + 1 := by omega
        constructor
        · rw [hsub]
          rw [heightLe, heightLeList_eq_true_iff]
          intro c hc
          by_cases hdir : node.is_directory = true
          · rw [if_pos hdir] at hc
            obtain ⟨cp, _, hcp⟩ := List.mem_filterMap.mp hc
            exact (ih cp (cd + 1) md c hcp).1
          · rw [if_neg hdir] at hc
            simp at hc
        · rw [lazySizesOk, hm]
          simp only [beq_self_eq_true, Bool.true_and]
          rw [lazySizesOkList_eq_true_iff]
          intro c hc
          by_cases hdir : node.is_directory = true
          · rw [if_pos hdir] at hc
            obtain ⟨cp, _, hcp⟩ := List.mem_filterMap.mp hc
            exact (ih cp (cd + 1) md c hcp).2
          · rw [if_neg hdir] at hc
            simp at hc

theorem build_lazy_size_expr (reg : List (String × DiscoveredNode))
    (cm : List (String × List String)) (sizeFuel : Nat)
    (fuel : Nat) (path : String) (cd md : Nat) (t : FileNode)
    (h : build_tree_recursive_lazy reg cm sizeFuel fuel path cd md = some t) :
    ∃ node, mapGet reg path = some node
      ∧ t.size = (if node.is_directory
          then calculate_dir_size_lazy reg cm sizeFuel path
          else node.size_bytes) := by
  cases fuel with
  | zero => simp [build_tree_recursive_lazy] at h
  | succ fuel =>
    rw [build_tree_recursive_lazy] at h
    by_cases hcd : md ≤ cd
    · rw [if_pos hcd] at h; simp at h
    · rw [if_neg hcd] at h
      cases hm : mapGet reg path with
      | none => rw [hm] at h; simp at h
      | some node =>
        rw [hm] at h
        obtain rfl := Option.some.inj h
        exact ⟨node, rfl, rfl⟩

/-- C3: the lazy tree builder takes a maximum presentation depth
(`defaultMaxDepth` is root + 2 levels); every delivered tree stays
within that depth — deeper registry nodes are omitted — yet every
delivered node still carries its full-registry aggregate size, so the
totals of delivered ancestors include the omitted nodes' sizes; in
particular the root total is the same at every cutoff at which it is
delivered (rebuilding at a deeper cutoff re-expands without changing
totals). -/
theorem lazy_builder_depth_cutoff_keeps_totals
    (reg : List (String × DiscoveredNode))
    (cm : List (String × List String)) (sizeFuel fuel : Nat)
    (path : String) (maxDepth : Nat) (t : FileNode)
    (h : build_tree_recursive_lazy reg cm sizeFuel fuel path 0 maxDepth
      = some t) :
    heightLe t maxDepth = true
      ∧ lazySizesOk reg cm sizeFuel t = true
      ∧ (∀ fuel' maxDepth' t',
          build_tree_recursive_lazy reg cm sizeFuel fuel' path 0 maxDepth'
            = some t' → t'.size = t.size) := by
  obtain ⟨hheight, hsizes⟩ :=
    build_lazy_bounded_and_sized reg cm sizeFuel fuel path 0 maxDepth t h
  refine ⟨by simpa using hheight, hsizes, ?_⟩
  intro fuel' md' t' h'
  obtain ⟨node, hm, hsz⟩ := build_lazy_size_expr reg cm sizeFuel fuel path
    0 maxDepth t h
  obtain ⟨node', hm', hsz'⟩ := build_lazy_size_expr reg cm sizeFuel fuel' path
    0 md' t' h'
  rw [hm] at hm'
  obtain rfl := Option.some.inj hm'
  rw [hsz, hsz']

/-- A small concrete Rust-side registry: the scenario tree keyed by
path. -/
def lazyRegW : List (String × DiscoveredNode) :=
  [("r", ⟨"r", none, true, 0, .other, 0⟩),
   ("r/a", ⟨"a", some "r", false, 100, .document, 0⟩),
   ("r/b", ⟨"b", some "r", false, 200, .document, 0⟩),
   ("r/c", ⟨"c", some "r", false, 300, .document, 0⟩),
   ("r/s", ⟨"s", some "r", true, 0, .other, 0⟩),
   ("r/s/f", ⟨"f", some "r/s", false, 50, .document, 0⟩)]

/-- The children index for `lazyRegW`. -/
def lazyCmW : List (String × List String) :=
  [("r", ["r/a", "r/b", "r/c", "r/s"]), ("r/s", ["r/s/f"])]

/-- The tree delivered at cutoff 2: the depth-2 file `r/s/f` is omitted,
yet `r/s` still reports 50 and the root 650. -/
def lazyTreeW : FileNode :=
  .mk "r" "r" 650 true
    [ .mk "a" "r/a" 100 false [] .document 0,
      .mk "b" "r/b" 200 false [] .document 0,
      .mk "c" "r/c" 300 false [] .document 0,
      .mk "s" "r/s" 50 true [] .other 0 ]
    .other 0

/-- Witness for C3 at cutoff 2 on the concrete registry. -/
theorem lazy_builder_depth_cutoff_keeps_totals_witness :
    build_tree_recursive_lazy lazyRegW lazyCmW 5 5 "r" 0 2 = some lazyTreeW
      ∧ (heightLe lazyTreeW 2 = true
          ∧ lazySizesOk lazyRegW lazyCmW 5 lazyTreeW = true
          ∧ (∀ fuel' maxDepth' t',
              build_tree_recursive_lazy lazyRegW lazyCmW 5 fuel' "r" 0
                maxDepth' = some t' → t'.size = lazyTreeW.size)) :=
  ⟨rfl,
    lazy_builder_depth_cutoff_keeps_totals lazyRegW lazyCmW 5 5 "r" 2
      lazyTreeW rfl⟩

end DiskAnalyser
